import Mathlib

/-!
Verification of the cryptographic core of mc3p (`encryption.py`):
PKCS#1 v1.5 shared-secret transport over RSA, the legacy RC4 stream
cipher, version-gated cipher selection, and the PBES1 (MD5 + DES-CBC)
password-based cipher.

Byte strings are modelled as `List Nat` (each element a byte value),
machine arithmetic as `Nat` with explicit `% 256` where the source
reduces modulo 256.  Library primitives (raw RSA, DES-CBC, MD5) are
modelled by explicit parameters: raw RSA as modular exponentiation with
PyCrypto's minimal big-endian integer coding, DES-CBC and MD5 as
abstract functions constrained only by the hypotheses a claim needs.
-/

namespace Mc3p

/-- PyCrypto `bytes_to_long`: big-endian interpretation of a byte string. -/
def bytesToNat (l : List Nat) : Nat :=
  l.foldl (fun a b => 256 * a + b) 0

/-- Helper for `natToBytes`; the first argument is fuel (the value itself
suffices, since the value shrinks by a factor of 256 each step). -/
def natToBytesGo : Nat → Nat → List Nat
  | 0, _ => []
  | fuel + 1, n => if n = 0 then [] else natToBytesGo fuel (n / 256) ++ [n % 256]

/-- PyCrypto `long_to_bytes` with no block size: minimal big-endian byte
string of a natural number (no leading zero bytes; `0` encodes as `[]`). -/
def natToBytes (n : Nat) : List Nat :=
  natToBytesGo n n

/-- Python `str.find` for the byte `0`: index of the first zero byte. -/
def findZero : List Nat → Option Nat
  | [] => none
  | b :: rest => if b = 0 then some 0 else (findZero rest).map (· + 1)

/-- `_pkcs1_unpad` from the source: locate the first zero byte; if its
position is strictly positive return everything after it, otherwise
(`find` returned 0 or nothing) fall through and return `None`. -/
def pkcs1_unpad (l : List Nat) : Option (List Nat) :=
  match findZero l with
  | some pos => if 0 < pos then some (l.drop (pos + 1)) else none
  | none => none

/-- `_pkcs1_pad` from the source, with the random non-zero filler bytes
passed explicitly: the block is `0x00 0x02 <filler> 0x00 <data>`. -/
def pkcs1_pad (padding : List Nat) (data : List Nat) : List Nat :=
  0 :: 2 :: (padding ++ 0 :: data)

/-- PyCrypto raw RSA public-key operation on a byte string:
`long_to_bytes ((bytes_to_long data) ^ e mod n)`.  Note the result is the
minimal encoding, not padded to the modulus length. -/
def rsa_encrypt (n e : Nat) (data : List Nat) : List Nat :=
  natToBytes (bytesToNat data ^ e % n)

/-- PyCrypto raw RSA private-key operation on a byte string. -/
def rsa_decrypt (n d : Nat) (data : List Nat) : List Nat :=
  natToBytes (bytesToNat data ^ d % n)

/-- `encrypt_shared_secret` from the source: RSA-encrypt the PKCS#1-padded
secret (the filler randomness is the `padding` parameter). -/
def encrypt_shared_secret (n e : Nat) (padding : List Nat) (secret : List Nat) : List Nat :=
  rsa_encrypt n e (pkcs1_pad padding secret)

/-- `decrypt_shared_secret` from the source: RSA-decrypt, then `_pkcs1_unpad`. -/
def decrypt_shared_secret (n d : Nat) (ciphertext : List Nat) : Option (List Nat) :=
  pkcs1_unpad (rsa_decrypt n d ciphertext)

/-- The facts about an RSA key pair that `RSA.generate(1024)` guarantees:
a 1024-bit modulus and exponentiation by `e` then `d` restoring every
residue below the modulus. -/
def Valid1024Key (n e d : Nat) : Prop :=
  2 ^ 1023 ≤ n ∧ n < 2 ^ 1024 ∧ ∀ m < n, (m ^ e % n) ^ d % n = m

/-! Bridging lemmas between the byte coders and `Nat.digits`. -/

theorem bytesToNat_append_singleton (l : List Nat) (b : Nat) :
    bytesToNat (l ++ [b]) = 256 * bytesToNat l + b := by
  simp [bytesToNat, List.foldl_append]

theorem bytesToNat_eq_ofDigits (l : List Nat) :
    bytesToNat l = Nat.ofDigits 256 l.reverse := by
  induction l using List.reverseRecOn with
  | nil => simp [bytesToNat, Nat.ofDigits]
  | append_singleton l b ih =>
      rw [bytesToNat_append_singleton, List.reverse_append]
      simp [Nat.ofDigits, ih]
      ring

theorem natToBytesGo_eq_digits (fuel : Nat) :
    ∀ n, n ≤ fuel → natToBytesGo fuel n = (Nat.digits 256 n).reverse := by
  induction fuel with
  | zero =>
      intro n hn
      have h0 : n = 0 := Nat.le_zero.mp hn
      subst h0
      simp [natToBytesGo]
  | succ fuel ih =>
      intro n hn
      by_cases h0 : n = 0
      · subst h0; simp [natToBytesGo]
      · have hpos : 0 < n := Nat.pos_of_ne_zero h0
        have hdiv : n / 256 ≤ fuel := by
          have := Nat.div_lt_self hpos (by norm_num : 1 < 256)
          omega
        rw [natToBytesGo, if_neg h0, ih _ hdiv,
          Nat.digits_def' (by norm_num : 1 < 256) hpos]
        simp

theorem natToBytes_eq_digits (n : Nat) :
    natToBytes n = (Nat.digits 256 n).reverse :=
  natToBytesGo_eq_digits n n (Nat.le_refl n)

/-- `bytes_to_long` is a left inverse of `long_to_bytes`. -/
theorem bytesToNat_natToBytes (n : Nat) : bytesToNat (natToBytes n) = n := by
  rw [natToBytes_eq_digits, bytesToNat_eq_ofDigits, List.reverse_reverse,
    Nat.ofDigits_digits]

/-- `long_to_bytes` is a left inverse of `bytes_to_long` on byte strings
with no leading zero byte. -/
theorem natToBytes_bytesToNat (l : List Nat)
    (hlt : ∀ b ∈ l, b < 256) (hhead : ∀ b ∈ l.head?, b ≠ 0) :
    natToBytes (bytesToNat l) = l := by
  cases l with
  | nil => simp [bytesToNat, natToBytes, natToBytesGo]
  | cons a t =>
      have ha : a ≠ 0 := hhead a rfl
      rw [natToBytes_eq_digits, bytesToNat_eq_ofDigits]
      have hrev : ∀ b ∈ (a :: t).reverse, b < 256 := by
        intro b hb
        exact hlt b (List.mem_reverse.mp hb)
      have hlast : ∀ h : (a :: t).reverse ≠ [], ((a :: t).reverse).getLast h ≠ 0 := by
        intro h
        rw [List.getLast_reverse]
        simpa using ha
      rw [Nat.digits_ofDigits 256 (by norm_num) (a :: t).reverse hrev hlast,
        List.reverse_reverse]

/-- Big-endian value of a byte string is below `256 ^ length`. -/
theorem bytesToNat_lt (l : List Nat) (hlt : ∀ b ∈ l, b < 256) :
    bytesToNat l < 256 ^ l.length := by
  induction l using List.reverseRecOn with
  | nil => simp [bytesToNat]
  | append_singleton l b ih =>
      have hb : b < 256 := hlt b (by simp)
      have hl : ∀ x ∈ l, x < 256 := fun x hx => hlt x (by simp [hx])
      have := ih hl
      rw [bytesToNat_append_singleton]
      simp only [List.length_append, List.length_singleton, pow_succ]
      calc 256 * bytesToNat l + b < 256 * bytesToNat l + 256 := by omega
        _ = 256 * (bytesToNat l + 1) := by ring
        _ ≤ 256 * 256 ^ l.length := by
            have : bytesToNat l + 1 ≤ 256 ^ l.length := this
            exact Nat.mul_le_mul_left 256 this
        _ = 256 ^ l.length * 256 := by ring

/-! Behaviour of the unpadding scan. -/

theorem findZero_append_of_no_zero (pre : List Nat) (rest : List Nat)
    (h : ∀ b ∈ pre, b ≠ 0) :
    findZero (pre ++ 0 :: rest) = some pre.length := by
  induction pre with
  | nil => simp [findZero]
  | cons a pre ih =>
      have ha : a ≠ 0 := h a (by simp)
      have htail : ∀ b ∈ pre, b ≠ 0 := fun b hb => h b (by simp [hb])
      simp [findZero, ha, ih htail]

theorem pkcs1_unpad_append (pre : List Nat) (rest : List Nat)
    (hne : pre ≠ []) (h : ∀ b ∈ pre, b ≠ 0) :
    pkcs1_unpad (pre ++ 0 :: rest) = some rest := by
  have hlen : 0 < pre.length := List.length_pos.mpr hne
  rw [pkcs1_unpad, findZero_append_of_no_zero pre rest h]
  simp only [hlen, if_pos]
  congr 1
  have : pre ++ 0 :: rest = (pre ++ [0]) ++ rest := by simp
  rw [this]
  have hlen2 : pre.length + 1 = (pre ++ [0]).length := by simp
  rw [hlen2, List.drop_left]

theorem bytesToNat_cons_zero (l : List Nat) : bytesToNat (0 :: l) = bytesToNat l := by
  simp [bytesToNat]

/-- A toy key pair satisfying the guarantees used of a generated 1024-bit
key: identity exponents over a 1024-bit modulus. -/
theorem toyKey_valid : Valid1024Key (2 ^ 1023) 1 1 := by
  refine ⟨Nat.le_refl _, ?_, ?_⟩
  · exact Nat.pow_lt_pow_right (by norm_num) (by norm_num)
  · intro m hm
    simp [Nat.mod_eq_of_lt hm]

/-- C1: `_pkcs1_unpad` does not raise a typed `PaddingError` on malformed
padding.  When the buffer has no zero separator it returns `None`; when the
block-type byte is wrong (here `1`, not `2`) it silently returns the bytes
after the first zero; a zero in the first position also yields `None`; and
`decrypt_shared_secret` passes the `None` through to its caller. -/
theorem pkcs1_unpad_not_typed_error :
    pkcs1_unpad [2, 5, 7] = none ∧
    pkcs1_unpad [1, 7, 0, 9] = some [9] ∧
    pkcs1_unpad [0, 3, 4] = none ∧
    decrypt_shared_secret 16777216 1 [2, 5, 7] = none := by
  refine ⟨by decide, by decide, by decide, by decide⟩

/-- C2: for every 16-byte secret, every draw of the non-zero filler bytes,
and every key pair with the guarantees of a generated 1024-bit RSA key,
decrypting the encrypted shared secret returns exactly the original secret. -/
theorem shared_secret_roundtrip (n e d : Nat) (secret padding : List Nat)
    (hkey : Valid1024Key n e d)
    (hslen : secret.length = 16) (hsb : ∀ b ∈ secret, b < 256)
    (hplen : padding.length = 109) (hpb : ∀ b ∈ padding, b ≠ 0 ∧ b < 256) :
    decrypt_shared_secret n d (encrypt_shared_secret n e padding secret)
      = some secret := by
  obtain ⟨hn1, hn2, hinv⟩ := hkey
  set L : List Nat := 2 :: (padding ++ 0 :: secret) with hL
  have hL256 : ∀ b ∈ L, b < 256 := by
    intro b hb
    rw [hL] at hb
    rcases List.mem_cons.mp hb with h2 | hb
    · omega
    · rcases List.mem_append.mp hb with hp | hs
      · exact (hpb b hp).2
      · rcases List.mem_cons.mp hs with h0 | hs
        · omega
        · exact hsb b hs
  have hLlen : L.length = 127 := by
    simp [hL, hslen, hplen]
  have hmlt : bytesToNat L < n := by
    have h1 := bytesToNat_lt L hL256
    rw [hLlen] at h1
    have h2 : (256 : Nat) ^ 127 ≤ 2 ^ 1023 := by
      have h8 : (256 : Nat) = 2 ^ 8 := by norm_num
      rw [h8, ← pow_mul]
      exact Nat.pow_le_pow_right (by norm_num) (by norm_num)
    omega
  have hpad : pkcs1_pad padding secret = 0 :: L := rfl
  have hLsplit : L = (2 :: padding) ++ 0 :: secret := rfl
  rw [decrypt_shared_secret, encrypt_shared_secret, rsa_decrypt, rsa_encrypt,
    hpad, bytesToNat_cons_zero, bytesToNat_natToBytes, hinv _ hmlt,
    natToBytes_bytesToNat L hL256
      (by
        intro b hb
        rw [hL] at hb
        simp only [List.head?_cons, Option.mem_def, Option.some.injEq] at hb
        omega),
    hLsplit, pkcs1_unpad_append (2 :: padding) secret (by simp)
      (by
        intro b hb
        rcases List.mem_cons.mp hb with h2 | hp
        · omega
        · exact (hpb b hp).1)]

/-- C2 witness: the round trip evaluated at a concrete secret, filler and
key satisfying all the hypotheses. -/
theorem shared_secret_roundtrip_witness :
    decrypt_shared_secret (2 ^ 1023) 1
      (encrypt_shared_secret (2 ^ 1023) 1 (List.replicate 109 1) (List.replicate 16 7))
      = some (List.replicate 16 7) :=
  shared_secret_roundtrip (2 ^ 1023) 1 1 (List.replicate 16 7) (List.replicate 109 1)
    toyKey_valid
    (by simp)
    (by
      intro b hb
      rw [List.eq_of_mem_replicate hb]
      norm_num)
    (by simp)
    (by
      intro b hb
      rw [List.eq_of_mem_replicate hb]
      exact ⟨by norm_num, by norm_num⟩)

/-! Stream-cipher selection (`encryption_for_version`). -/

/-- The two constructors `encryption_for_version` can return. -/
inductive StreamCipherChoice where
  | rc4Legacy : StreamCipherChoice
  | aes128cfb8 : StreamCipherChoice
  deriving DecidableEq

/-- `encryption_for_version` from the source. -/
def encryption_for_version (version : Int) : StreamCipherChoice :=
  if version ≤ 32 then .rc4Legacy else .aes128cfb8

/-- C9: the cipher selection returns RC4 exactly for versions at most 32
and AES-CFB8 otherwise; in particular RC4 at versions 32 and 0 and
AES-CFB8 at version 33. -/
theorem encryption_for_version_spec :
    (∀ version : Int,
      (encryption_for_version version = .rc4Legacy ↔ version ≤ 32) ∧
      (encryption_for_version version = .aes128cfb8 ↔ 32 < version)) ∧
    encryption_for_version 32 = .rc4Legacy ∧
    encryption_for_version 0 = .rc4Legacy ∧
    encryption_for_version 33 = .aes128cfb8 := by
  refine ⟨?_, by decide, by decide, by decide⟩
  intro version
  by_cases h : version ≤ 32
  · simp only [encryption_for_version, if_pos h]
    constructor
    · simp [h]
    · constructor
      · intro hx
        exact absurd hx (by simp)
      · intro hx
        omega
  · simp only [encryption_for_version, if_neg h]
    constructor
    · constructor
      · intro hx
        exact absurd hx (by simp)
      · intro hx
        omega
    · simp
      omega

/-! The PBES1 (MD5 + DES-CBC) password-based cipher.  The derived-key
computation and the DES-CBC primitive are library calls; DES-CBC under the
derived key/IV is modelled by the abstract functions `desEncrypt` and
`desDecrypt`, and MD5 by an abstract digest function. -/

/-- `PBEWithMD5AndDES._generate_key`: append the salt, hash `count` times,
truncate.  `md5` is the abstract digest function. -/
def pbe_generate_key (md5 : List Nat → List Nat) (key salt : List Nat)
    (count : Nat) (length : Nat) : List Nat :=
  (md5^[count] (key ++ salt)).take length

/-- The padding step of `PBEWithMD5AndDES.encrypt`: append `8 - len % 8`
bytes, each holding the pad length. -/
def pbe_pad (plaintext : List Nat) : List Nat :=
  plaintext ++ List.replicate (8 - plaintext.length % 8) (8 - plaintext.length % 8)

/-- `PBEWithMD5AndDES.encrypt`: pad, then DES-CBC encrypt. -/
def pbe_encrypt (desEncrypt : List Nat → List Nat) (plaintext : List Nat) : List Nat :=
  desEncrypt (pbe_pad plaintext)

/-- The unpadding step of `PBEWithMD5AndDES.decrypt`, Python
`plaintext[:-ord(plaintext[-1])]`: drop as many trailing bytes as the last
byte says.  A slice to `-0` is empty in Python, as is a slice past the
front; indexing the last byte of an empty buffer raises, modelled as
`none`. -/
def pbe_strip (plaintext : List Nat) : Option (List Nat) :=
  match plaintext.getLast? with
  | none => none
  | some n => some (if n = 0 then [] else plaintext.take (plaintext.length - n))

/-- `PBEWithMD5AndDES.decrypt`: DES-CBC decrypt, then strip. -/
def pbe_decrypt (desDecrypt : List Nat → List Nat) (ciphertext : List Nat) :
    Option (List Nat) :=
  pbe_strip (desDecrypt ciphertext)

/-- C3: on a buffer whose DES-CBC decryption ends in a pad byte of `0`, or
one exceeding the buffer length, `decrypt` returns a sliced (empty) result
instead of failing with `InvalidPaddingError`. -/
theorem pbe_decrypt_no_padding_validation :
    pbe_decrypt id [1, 2, 3, 0] = some [] ∧
    pbe_decrypt id [1, 2, 3, 200] = some [] := by
  refine ⟨by decide, by decide⟩

theorem pbe_pad_length_mod (plaintext : List Nat) :
    (pbe_pad plaintext).length % 8 = 0 := by
  have h : plaintext.length % 8 < 8 := Nat.mod_lt _ (by norm_num)
  simp only [pbe_pad, List.length_append, List.length_replicate]
  omega

theorem getLast?_replicate_succ (k a : Nat) :
    (List.replicate (k + 1) a).getLast? = some a := by
  induction k with
  | zero => rfl
  | succ k ih =>
      rw [List.replicate_succ]
      rw [List.getLast?_cons]
      simp only [ih]
      simp [List.replicate_succ]

/-- C7: PBE decryption inverts PBE encryption for every plaintext, given
that DES-CBC decryption inverts DES-CBC encryption on block-aligned input
(the two calls share the key and IV derived from the common password). -/
theorem pbe_roundtrip (desEncrypt desDecrypt : List Nat → List Nat)
    (plaintext : List Nat)
    (hdes : ∀ l : List Nat, l.length % 8 = 0 → desDecrypt (desEncrypt l) = l) :
    pbe_decrypt desDecrypt (pbe_encrypt desEncrypt plaintext) = some plaintext := by
  have hmod8 : plaintext.length % 8 < 8 := Nat.mod_lt _ (by norm_num)
  set k : Nat := 8 - plaintext.length % 8 with hk
  have hk1 : 1 ≤ k := by omega
  rw [pbe_decrypt, pbe_encrypt, hdes _ (pbe_pad_length_mod plaintext)]
  have hpad : pbe_pad plaintext = plaintext ++ List.replicate k k := rfl
  obtain ⟨j, hj⟩ : ∃ j, k = j + 1 := ⟨k - 1, by omega⟩
  have hlast : (pbe_pad plaintext).getLast? = some k := by
    rw [hpad, List.getLast?_append_of_ne_nil, hj, getLast?_replicate_succ]
    rw [hj]
    simp
  rw [pbe_strip, hlast]
  simp only [Option.some.injEq]
  rw [if_neg (by omega)]
  have hlen : (pbe_pad plaintext).length - k = plaintext.length := by
    simp only [hpad, List.length_append, List.length_replicate]
    omega
  rw [hlen, hpad, List.take_left]

/-- C7 witness: the round trip at a concrete plaintext with the identity
standing in for the DES-CBC pair. -/
theorem pbe_roundtrip_witness :
    pbe_decrypt id (pbe_encrypt id [9, 9, 9]) = some [9, 9, 9] :=
  pbe_roundtrip id id [9, 9, 9] (fun _ _ => rfl)

/-- C8: `encrypt` hands DES-CBC exactly the plaintext followed by
`8 - len % 8` pad bytes, each equal to the pad length, so the padded
length is `len + (8 - len % 8)`; an already block-aligned plaintext (the
concrete final conjunct) receives a full pad block of eight `8`s. -/
theorem pbe_encrypt_padding_spec (desEncrypt : List Nat → List Nat)
    (plaintext : List Nat) :
    pbe_encrypt desEncrypt plaintext = desEncrypt (pbe_pad plaintext) ∧
    (pbe_pad plaintext).length = plaintext.length + (8 - plaintext.length % 8) ∧
    (pbe_pad plaintext).take plaintext.length = plaintext ∧
    (pbe_pad plaintext).drop plaintext.length
      = List.replicate (8 - plaintext.length % 8) (8 - plaintext.length % 8) ∧
    1 ≤ 8 - plaintext.length % 8 ∧ 8 - plaintext.length % 8 ≤ 8 ∧
    pbe_pad [0, 0, 0, 0, 0, 0, 0, 0]
      = [0, 0, 0, 0, 0, 0, 0, 0] ++ List.replicate 8 8 := by
  have hmod8 : plaintext.length % 8 < 8 := Nat.mod_lt _ (by norm_num)
  refine ⟨rfl, ?_, ?_, ?_, by omega, by omega, by decide⟩
  · simp only [pbe_pad, List.length_append, List.length_replicate]
  · rw [pbe_pad, List.take_left]
  · rw [pbe_pad, List.drop_left]

/-! The legacy RC4 stream cipher (`class RC4`). -/

/-- RC4 state: the 256-entry table (a function on the indices `0..255`;
indices outside that range are never consulted by the source, which always
reduces modulo 256 or iterates over `range(256)`) and the two running
indices. -/
structure RC4 where
  box : Nat → Nat
  x : Nat
  y : Nat

/-- Python's parallel assignment `box[a], box[b] = box[b], box[a]`. -/
def swapF (f : Nat → Nat) (a b : Nat) : Nat → Nat :=
  fun j => if j = a then f b else if j = b then f a else f j

/-- One iteration of the key-schedule loop in `RC4.__init__`. -/
def ksaStep (key : List Nat) (p : (Nat → Nat) × Nat) (i : Nat) : (Nat → Nat) × Nat :=
  let x := (p.2 + p.1 i + key.getD (i % key.length) 0) % 256
  (swapF p.1 i x, x)

/-- `RC4.__init__`: schedule the key over `box = range(256)`, then start
the transform at `x = y = 0`. -/
def rc4Init (key : List Nat) : RC4 :=
  let p := (List.range 256).foldl (ksaStep key) (fun i => i, 0)
  ⟨p.1, 0, 0⟩

/-- One iteration of the loop in `RC4.crypt`: step `x`, step `y`, swap,
and emit the input byte XORed with the keystream byte. -/
def cryptStep (st : RC4) (c : Nat) : RC4 × Nat :=
  let x := (st.x + 1) % 256
  let y := (st.y + st.box x) % 256
  let box := swapF st.box x y
  (⟨box, x, y⟩, c ^^^ box ((box x + box y) % 256))

/-- `RC4.crypt` (also bound as `encrypt` and `decrypt`): transform the
bytes in order, threading the mutable state. -/
def crypt : RC4 → List Nat → RC4 × List Nat
  | st, [] => (st, [])
  | st, c :: rest =>
      let p := cryptStep st c
      let q := crypt p.1 rest
      (q.1, p.2 :: q.2)

/-! A second formulation written from the specification text, to compare
with the translation of the source: the key schedule as a recursion on the
iteration count, the transform as a fold accumulating output bytes. -/

/-- Key schedule as the spec words it: after `n` iterations of
swapping `box[i]` with `box[x]` under the running index recurrence. -/
def rc4SpecKsa (key : List Nat) : Nat → (Nat → Nat) × Nat
  | 0 => (fun i => i, 0)
  | n + 1 =>
      let p := rc4SpecKsa key n
      let x := (p.2 + p.1 n + key.getD (n % key.length) 0) % 256
      (swapF p.1 n x, x)

/-- Construction per the spec: 256 key-schedule iterations, transform
state starting at `x = y = 0`. -/
def rc4SpecInit (key : List Nat) : RC4 :=
  ⟨(rc4SpecKsa key 256).1, 0, 0⟩

/-- Transform step per the spec sentence: advance `x`, advance `y`, swap
`box[x]` and `box[y]`, output the input byte XOR the keystream byte. -/
def rc4SpecStep (st : RC4) (c : Nat) : RC4 × Nat :=
  let x := (st.x + 1) % 256
  let y := (st.y + st.box x) % 256
  let box := swapF st.box x y
  let keystreamByte := box ((box x + box y) % 256)
  ({ box := box, x := x, y := y }, c ^^^ keystreamByte)

/-- Transform per the spec: the step applied once per input byte in
strict order. -/
def rc4SpecCrypt (st : RC4) (data : List Nat) : RC4 × List Nat :=
  data.foldl (fun acc c =>
    let p := rc4SpecStep acc.1 c
    (p.1, acc.2 ++ [p.2])) (st, [])

theorem rc4SpecStep_eq_cryptStep : rc4SpecStep = cryptStep := rfl

theorem ksa_foldl_eq_spec (key : List Nat) :
    ∀ n, (List.range n).foldl (ksaStep key) (fun i => i, 0) = rc4SpecKsa key n := by
  intro n
  induction n with
  | zero => rfl
  | succ n ih =>
      rw [List.range_succ, List.foldl_append, List.foldl_cons, List.foldl_nil, ih]
      rfl

theorem crypt_cons (st : RC4) (c : Nat) (rest : List Nat) :
    crypt st (c :: rest)
      = ((crypt (cryptStep st c).1 rest).1,
         (cryptStep st c).2 :: (crypt (cryptStep st c).1 rest).2) := rfl

theorem cryptStep_foldl (data : List Nat) :
    ∀ (st : RC4) (out : List Nat),
      data.foldl (fun acc c =>
        ((cryptStep acc.1 c).1, acc.2 ++ [(cryptStep acc.1 c).2])) (st, out)
      = ((crypt st data).1, out ++ (crypt st data).2) := by
  induction data with
  | nil => intro st out; simp [crypt]
  | cons c rest ih =>
      intro st out
      rw [List.foldl_cons, crypt_cons]
      rw [ih (cryptStep st c).1 (out ++ [(cryptStep st c).2])]
      simp

/-- C5: the RC4 translated from the source coincides, on construction and
on every transform call, with the algorithm as the specification words it. -/
theorem rc4_implements_spec :
    (∀ key, rc4Init key = rc4SpecInit key) ∧
    (∀ st data, crypt st data = rc4SpecCrypt st data) := by
  constructor
  · intro key
    show RC4.mk ((List.range 256).foldl (ksaStep key) (fun i => i, 0)).1 0 0
      = rc4SpecInit key
    rw [ksa_foldl_eq_spec key 256]
    rfl
  · intro st data
    rw [rc4SpecCrypt]
    simp only [rc4SpecStep_eq_cryptStep]
    rw [cryptStep_foldl data st []]
    simp

/-- The state after one transform step; it does not depend on the input
byte. -/
def rc4Next (st : RC4) : RC4 :=
  (cryptStep st 0).1

/-- The keystream byte produced by one transform step. -/
def rc4KS (st : RC4) : Nat :=
  let x := (st.x + 1) % 256
  let y := (st.y + st.box x) % 256
  let box := swapF st.box x y
  box ((box x + box y) % 256)

theorem cryptStep_eq (st : RC4) (c : Nat) :
    cryptStep st c = (rc4Next st, c ^^^ rc4KS st) := rfl

theorem crypt_crypt (data : List Nat) :
    ∀ st : RC4, (crypt st ((crypt st data).2)).2 = data := by
  induction data with
  | nil => intro st; rfl
  | cons c rest ih =>
      intro st
      rw [crypt_cons, cryptStep_eq]
      simp only
      rw [crypt_cons, cryptStep_eq]
      simp only
      rw [ih (rc4Next st)]
      congr 1
      rw [Nat.xor_assoc, Nat.xor_self, Nat.xor_zero]

/-- C6: transforming a byte sequence with one freshly keyed RC4 instance
and feeding the output to a second, independently keyed instance with the
same 16-byte key returns the original sequence. -/
theorem rc4_roundtrip (key : List Nat) (hkey : key.length = 16) (data : List Nat) :
    (crypt (rc4Init key) ((crypt (rc4Init key) data).2)).2 = data :=
  crypt_crypt data (rc4Init key)

/-- C6 witness: the round trip at a concrete 16-byte key and data. -/
theorem rc4_roundtrip_witness :
    (List.replicate 16 2 : List Nat).length = 16 ∧
    (crypt (rc4Init (List.replicate 16 2))
      ((crypt (rc4Init (List.replicate 16 2)) [0, 1, 255]).2)).2 = [0, 1, 255] :=
  ⟨by simp, rc4_roundtrip (List.replicate 16 2) (by simp) [0, 1, 255]⟩

/-! C10: the RC4 state invariant. -/

/-- The RC4 state invariant: the table maps `0..255` bijectively onto
`0..255` (so every lookup the transform performs is in bounds) and both
running indices are bytes. -/
def RC4Inv (st : RC4) : Prop :=
  Set.BijOn st.box (Set.Iio 256) (Set.Iio 256) ∧ st.x < 256 ∧ st.y < 256

theorem swapF_eq_comp (f : Nat → Nat) (a b : Nat) :
    swapF f a b = f ∘ Equiv.swap a b := by
  funext j
  simp only [swapF, Function.comp_apply, Equiv.swap_apply_def]
  by_cases h1 : j = a
  · simp [h1]
  · by_cases h2 : j = b
    · subst h2
      simp [h1]
    · simp [h1, h2]

theorem bijOn_swapF {f : Nat → Nat} {S : Set Nat} {a b : Nat}
    (hf : Set.BijOn f S S) (ha : a ∈ S) (hb : b ∈ S) :
    Set.BijOn (swapF f a b) S S := by
  rw [swapF_eq_comp]
  exact hf.comp (Equiv.bijOn_swap ha hb)

/-- The key-schedule invariant: table bijective, running index a byte. -/
def KsaInv (p : (Nat → Nat) × Nat) : Prop :=
  Set.BijOn p.1 (Set.Iio 256) (Set.Iio 256) ∧ p.2 < 256

theorem ksaStep_inv (key : List Nat) (p : (Nat → Nat) × Nat) (i : Nat)
    (hi : i < 256) (hp : KsaInv p) : KsaInv (ksaStep key p i) := by
  obtain ⟨hb, _⟩ := hp
  have hx : (p.2 + p.1 i + key.getD (i % key.length) 0) % 256 < 256 :=
    Nat.mod_lt _ (by norm_num)
  exact ⟨bijOn_swapF hb (Set.mem_Iio.mpr hi) (Set.mem_Iio.mpr hx), hx⟩

theorem foldl_ksa_inv (key : List Nat) :
    ∀ (l : List Nat) (p : (Nat → Nat) × Nat),
      (∀ i ∈ l, i < 256) → KsaInv p → KsaInv (l.foldl (ksaStep key) p) := by
  intro l
  induction l with
  | nil => intro p _ hp; exact hp
  | cons i rest ih =>
      intro p hmem hp
      rw [List.foldl_cons]
      exact ih _ (fun j hj => hmem j (by simp [hj]))
        (ksaStep_inv key p i (hmem i (by simp)) hp)

theorem cryptStep_inv (st : RC4) (c : Nat) (h : RC4Inv st) :
    RC4Inv (cryptStep st c).1 := by
  obtain ⟨hb, _, _⟩ := h
  have hx : (st.x + 1) % 256 < 256 := Nat.mod_lt _ (by norm_num)
  have hy : (st.y + st.box ((st.x + 1) % 256)) % 256 < 256 :=
    Nat.mod_lt _ (by norm_num)
  exact ⟨bijOn_swapF hb (Set.mem_Iio.mpr hx) (Set.mem_Iio.mpr hy), hx, hy⟩

theorem crypt_inv (data : List Nat) :
    ∀ st : RC4, RC4Inv st → RC4Inv ((crypt st data).1) := by
  induction data with
  | nil => intro st h; exact h
  | cons c rest ih =>
      intro st h
      rw [crypt_cons]
      exact ih _ (cryptStep_inv st c h)

theorem crypt_length (data : List Nat) :
    ∀ st : RC4, ((crypt st data).2).length = data.length := by
  induction data with
  | nil => intro st; rfl
  | cons c rest ih =>
      intro st
      rw [crypt_cons]
      simp [ih]

/-- C10: for a non-empty key the freshly constructed state satisfies the
invariant (table a permutation of `0..255`, indices bytes), every
transform call preserves it, and the output always has the input's
length. -/
theorem rc4_state_invariant (key : List Nat) (hkey : key ≠ []) :
    RC4Inv (rc4Init key) ∧
    (∀ st data, RC4Inv st → RC4Inv ((crypt st data).1)) ∧
    (∀ st data, ((crypt st data).2).length = data.length) := by
  refine ⟨?_, fun st data h => crypt_inv data st h,
    fun st data => crypt_length data st⟩
  have hinit : KsaInv ((fun i => i : Nat → Nat), 0) := by
    constructor
    · exact Set.bijOn_id _
    · norm_num
  have h := foldl_ksa_inv key (List.range 256) (fun i => i, 0)
    (fun i hi => List.mem_range.mp hi) hinit
  refine ⟨h.1, ?_, ?_⟩
  · show (0 : Nat) < 256
    norm_num
  · show (0 : Nat) < 256
    norm_num

/-- C10 witness: the invariant theorem applied at a concrete non-empty
key. -/
theorem rc4_state_invariant_witness :
    RC4Inv (rc4Init [7]) ∧
    (∀ st data, RC4Inv st → RC4Inv ((crypt st data).1)) ∧
    (∀ st data, ((crypt st data).2).length = data.length) :=
  rc4_state_invariant [7] (by simp)

/-! C4: ciphertext length.  PyCrypto's public-key `encrypt` converts the
result integer with `long_to_bytes` and no block size, i.e. to its
minimal big-endian encoding, so the ciphertext is shorter than the
modulus whenever the result integer has a leading zero byte. -/

theorem natToBytes_length_le (c k : Nat) (h : c < 256 ^ k) :
    (natToBytes c).length ≤ k := by
  rw [natToBytes_eq_digits, List.length_reverse]
  by_cases hc : c = 0
  · subst hc
    simp
  · have hlog := (Nat.lt_pow_iff_log_lt (by norm_num : 1 < 256) hc).mp h
    rw [Nat.digits_len 256 c (by norm_num) hc]
    omega

set_option maxRecDepth 8000

/-- C4 counterexample: a key pair with the stated guarantees of a
generated 1024-bit key, a 16-byte secret and a valid draw of the filler
bytes on which the ciphertext has 127 bytes, not 128: the RSA result
integer is below `256 ^ 127`, and the minimal encoding drops the leading
zero byte. -/
theorem encrypt_shared_secret_short_ciphertext :
    Valid1024Key (2 ^ 1023) 1 1 ∧
    (List.replicate 16 65 : List Nat).length = 16 ∧
    (∀ b ∈ (List.replicate 109 1 : List Nat), b ≠ 0 ∧ b < 256) ∧
    (encrypt_shared_secret (2 ^ 1023) 1 (List.replicate 109 1)
      (List.replicate 16 65)).length = 127 := by
  refine ⟨toyKey_valid, by simp, ?_, ?_⟩
  · intro b hb
    rw [List.eq_of_mem_replicate hb]
    exact ⟨by norm_num, by norm_num⟩
  · set L : List Nat := 2 :: (List.replicate 109 1 ++ 0 :: List.replicate 16 65) with hLdef
    have h256 : ∀ b ∈ L, b < 256 := by decide
    have hhead : ∀ b ∈ L.head?, b ≠ 0 := by decide
    have hlen : L.length = 127 := by decide
    have hlt : bytesToNat L < 2 ^ 1023 := by
      have h1 := bytesToNat_lt L h256
      rw [hlen] at h1
      have h2 : (256 : Nat) ^ 127 ≤ 2 ^ 1023 := by
        rw [show (256 : Nat) = 2 ^ 8 by norm_num, ← pow_mul]
        exact Nat.pow_le_pow_right (by norm_num) (by norm_num)
      omega
    have hpad : pkcs1_pad (List.replicate 109 1) (List.replicate 16 65) = 0 :: L := rfl
    rw [encrypt_shared_secret, rsa_encrypt, hpad, bytesToNat_cons_zero, pow_one,
      Nat.mod_eq_of_lt hlt, natToBytes_bytesToNat L h256 hhead, hlen]

/-- C4 amended: against a key with the guarantees of a generated 1024-bit
key the ciphertext has at most 128 bytes (it is the minimal big-endian
encoding of a value below the modulus, so it can also be shorter). -/
theorem encrypt_shared_secret_length_le (n e d : Nat) (padding secret : List Nat)
    (hkey : Valid1024Key n e d) :
    (encrypt_shared_secret n e padding secret).length ≤ 128 := by
  obtain ⟨hn1, hn2, _⟩ := hkey
  have hpos : 0 < n := lt_of_lt_of_le (pow_pos (by norm_num) 1023) hn1
  have hc : bytesToNat (pkcs1_pad padding secret) ^ e % n < n := Nat.mod_lt _ hpos
  have h256 : (256 : Nat) ^ 128 = 2 ^ 1024 := by
    rw [show (256 : Nat) = 2 ^ 8 by norm_num, ← pow_mul]
  apply natToBytes_length_le
  rw [h256]
  omega

/-- C4 amended witness: the length bound at a concrete key, filler and
secret. -/
theorem encrypt_shared_secret_length_le_witness :
    (encrypt_shared_secret (2 ^ 1023) 1 (List.replicate 109 1)
      (List.replicate 16 65)).length ≤ 128 :=
  encrypt_shared_secret_length_le (2 ^ 1023) 1 1 (List.replicate 109 1)
    (List.replicate 16 65) toyKey_valid

end Mc3p
